import Mathlib

/-!
Verification of the Common-Likes Aggregator of `src/common_likes.py`
(`Track`, `find_common_likes`) against its natural-language specification.

The Python code is shallowly embedded:
* `Track` is the `@dataclass` of lines 24-36; its `__hash__`/`__eq__`
  (defined solely from the `id` field) are embedded as `Track.hash` / `Track.beq`.
* The insertion-ordered dictionary `track_to_artists : dict[int, (Track, list[str])]`
  is embedded as an association list `List Entry` kept in insertion order,
  exactly as CPython dictionaries iterate.
* Python `str.lower()` is embedded per-character (`lowerStr`), and Python's
  lexicographic code-point comparison of strings as `strLE`.
* `list.sort(key=lambda x: (-len(x[1]), x[0].title.lower()))` is Python's
  stable ascending sort by that key; it is embedded as `List.mergeSort`
  (a stable sort) with the total preorder `trackLE`, which compares the
  pair (artist-list length, lowercased title) with the length order reversed,
  the same order as the key `(-len, title.lower())`.
-/

set_option maxHeartbeats 1000000

namespace Spopify

/-- The `Track` dataclass of `common_likes.py` lines 24-30:
fields `id : int`, `title/artist/url : str`. -/
structure Track where
  id : Int
  title : String
  artist : String
  url : String
deriving DecidableEq, Repr

/-- Line 32-33: `def __hash__(self): return self.id`. -/
def Track.hash (t : Track) : Int := t.id

/-- Line 35-36: `def __eq__(self, other): return self.id == other.id`. -/
def Track.beq (t other : Track) : Bool := t.id == other.id

/-- Python `str.lower()` on one character (ASCII letters; embedding of the
per-character lowercasing performed by `title.lower()` at line 96). -/
def lowerChar (c : Char) : Char :=
  if 65 ≤ c.toNat ∧ c.toNat ≤ 90 then Char.ofNat (c.toNat + 32) else c

/-- Python `str.lower()`: lowercase every character of the string. -/
def lowerStr (s : String) : List Char := s.data.map lowerChar

/-- Python string comparison `s <= t`: lexicographic by code point. -/
def strLE : List Char → List Char → Bool
  | [], _ => true
  | _ :: _, [] => false
  | c :: s, d :: t => if c = d then strLE s t else decide (c.toNat < d.toNat)

/-- Python ascending comparison of the sort keys `(-len(artists), title.lower())`
(line 96): larger artist count first, then lowercased title ascending. -/
def keyLE (k1 k2 : Nat × List Char) : Bool :=
  decide (k2.1 < k1.1) || (k1.1 == k2.1 && strLE k1.2 k2.2)

/-- The sort key of one aggregation entry, up to the sign on the length
(line 96: `(-len(x[1]), x[0].title.lower())`). -/
def sortKey (e : Track × List String) : Nat × List Char :=
  (e.2.length, lowerStr e.1.title)

/-- The comparison used by the final stable sort at line 96. -/
def trackLE (a b : Track × List String) : Bool :=
  keyLE (sortKey a) (sortKey b)

/-- One insertion-ordered entry of `track_to_artists`:
key `track.id`, value `(track, list of artist names)`. -/
abbrev Entry := Int × Track × List String

/-- Lines 84-86 for a single like: if `track.id not in track_to_artists`,
insert `(track, [])` at the end (dict insertion order); then
`track_to_artists[track.id][1].append(artist_name)`. -/
def addLike (m : List Entry) (name : String) (t : Track) : List Entry :=
  let m1 := if m.any (fun e => e.1 == t.id) then m else m ++ [(t.id, t, [])]
  m1.map (fun e => if e.1 == t.id then (e.1, e.2.1, e.2.2 ++ [name]) else e)

/-- Lines 80-86: the two nested `for` loops building `track_to_artists`,
iterating the `artist_likes` mapping in insertion order. -/
def buildMap (al : List (String × List Track)) : List Entry :=
  al.foldl (fun m p => p.2.foldl (fun m' t => addLike m' p.1 t) m) []

/-- Python `track_to_artists.values()` (line 91): the dict's values in
insertion order. -/
def dictValues (m : List Entry) : List (Track × List String) :=
  m.map (fun e => e.2)

/-- Lines 89-93: the list comprehension filtering `track_to_artists.values()`
to entries with `len(artists) >= min_artists`. -/
def commonOf (al : List (String × List Track)) (min_artists : Int) :
    List (Track × List String) :=
  (dictValues (buildMap al)).filter (fun v => min_artists ≤ (v.2.length : Int))

/-- Lines 73-98: `find_common_likes(artist_likes, min_artists)`.
The mapping argument is embedded as its insertion-ordered association list. -/
def find_common_likes (al : List (String × List Track)) (min_artists : Int) :
    List (Track × List String) :=
  (commonOf al min_artists).mergeSort trackLE

/-- The traversal order of the two nested loops of lines 82-83:
every (artist name, track) pair, artists in mapping order, tracks in list order. -/
def flatLikes (al : List (String × List Track)) : List (String × Track) :=
  al.flatMap (fun p => p.2.map (fun t => (p.1, t)))

/-- One step of the flattened traversal. -/
def stepLike (m : List Entry) (q : String × Track) : List Entry :=
  addLike m q.1 q.2

/-- The ordered list of artist names credited to track id `i` by the traversal
`l`, one per occurrence. -/
def likersOf (l : List (String × Track)) (i : Int) : List String :=
  (l.filter (fun q => q.2.id == i)).map (fun q => q.1)

/-- The first track record of the traversal `l` carrying id `i`. -/
def firstTrack (l : List (String × Track)) (i : Int) : Option Track :=
  (l.find? (fun q => q.2.id == i)).map (fun q => q.2)

/-- The number of distinct artist names credited to track id `i`. -/
def distinctLikers (al : List (String × List Track)) (i : Int) : Nat :=
  (likersOf (flatLikes al) i).dedup.length

/-- The update applied to every dict entry whose key is `i` by the append of
line 86 (with a CPython dict there is exactly one such entry). -/
def updEntry (i : Int) (name : String) (e : Entry) : Entry :=
  if e.1 == i then (e.1, e.2.1, e.2.2 ++ [name]) else e

/-- The loop invariant of the dict `track_to_artists` after processing the
traversal `l`: keys are distinct; a key is present iff some processed track
carries it; each entry stores its key's first-seen track record and the
per-occurrence list of liker names in traversal order. -/
def MapInv (l : List (String × Track)) (m : List Entry) : Prop :=
  (m.map (fun e => e.1)).Nodup ∧
  (∀ i : Int, (∃ e ∈ m, e.1 = i) ↔ ∃ q ∈ l, q.2.id = i) ∧
  (∀ e ∈ m, e.2.1.id = e.1 ∧ firstTrack l e.1 = some e.2.1 ∧ e.2.2 = likersOf l e.1)

/-! A fallible embedding of the same code, for the totality claim: the one
operation of `find_common_likes` that can raise on some states is the dict
subscript `track_to_artists[track.id]` at line 86 (`KeyError` when absent);
it is embedded as an `Option`, `none` standing for a raised error. -/

/-- Lines 84-86 with the dict subscript of line 86 made fallible: after the
conditional insertion of line 84-85 the subscript looks the key up and
raises (`none`) when it is absent. -/
def addLikeOpt (m : List Entry) (name : String) (t : Track) : Option (List Entry) :=
  let m1 := if m.any (fun e => e.1 == t.id) then m else m ++ [(t.id, t, [])]
  if m1.any (fun e => e.1 == t.id) then
    some (m1.map (fun e => if e.1 == t.id then (e.1, e.2.1, e.2.2 ++ [name]) else e))
  else none

/-- Lines 80-86 in the fallible embedding. -/
def buildMapOpt (al : List (String × List Track)) : Option (List Entry) :=
  al.foldlM (fun m p => p.2.foldlM (fun m' t => addLikeOpt m' p.1 t) m) ([] : List Entry)

/-- Lines 73-98 in the fallible embedding: `none` means the Python call would
raise, `some r` that it returns `r`. -/
def find_common_likesOpt (al : List (String × List Track)) (minA : Int) :
    Option (List (Track × List String)) :=
  (buildMapOpt al).map (fun bm =>
    ((dictValues bm).filter (fun v => minA ≤ (v.2.length : Int))).mergeSort trackLE)

/-! A heap-based embedding of the mutating loop, for the frame claim: Python
lists and `Track` objects are mutable heap objects passed by reference, so the
input mapping, its per-artist `list[Track]` objects and its `Track` records
live in an explicit store, addressed by position.  The only writing operation
the source performs is the `append` of line 86 on a liker list freshly
allocated at line 85; everything else only reads. -/

/-- One heap object: a `Track` record, a `list[Track]` of track-object
addresses (an artist's like-list), or a `list[str]` of liker names. -/
inductive Obj where
  | trackObj : Track → Obj
  | trackList : List Nat → Obj
  | strList : List String → Obj
deriving DecidableEq, Repr

/-- The heap: objects addressed by position. -/
abbrev Store := List Obj

/-- Dereference a `Track` object. -/
def readTrack (s : Store) (a : Nat) : Option Track :=
  match s.get? a with
  | some (Obj.trackObj t) => some t
  | _ => none

/-- Dereference a `list[Track]` object. -/
def readTrackList (s : Store) (a : Nat) : Option (List Nat) :=
  match s.get? a with
  | some (Obj.trackList l) => some l
  | _ => none

/-- Dereference a `list[str]` object. -/
def readStrs (s : Store) (a : Nat) : Option (List String) :=
  match s.get? a with
  | some (Obj.strList l) => some l
  | _ => none

/-- Line 86's `.append(artist_name)`: mutate the `list[str]` object at
address `a` in place. -/
def appendName (s : Store) (a : Nat) (name : String) : Option Store :=
  match s.get? a with
  | some (Obj.strList l) => some (s.set a (Obj.strList (l ++ [name])))
  | _ => none

/-- One entry of `track_to_artists` in the heap embedding:
key `track.id`, value a pair of references (track object, liker list). -/
abbrev DEntry := Int × Nat × Nat

/-- Lines 83-86 for one like, on the heap: dereference the track; if its id is
a fresh key, allocate a new empty `list[str]` at the end of the store (line 85)
and bind the key to the references; then append the artist name to the liker
list the key maps to (line 86). -/
def stepLikeS (name : String) (sd : Store × List DEntry) (ta : Nat) :
    Option (Store × List DEntry) := do
  let t ← readTrack sd.1 ta
  let sd1 :=
    if sd.2.any (fun e => e.1 == t.id) then sd
    else (sd.1 ++ [Obj.strList []], sd.2 ++ [(t.id, ta, sd.1.length)])
  match sd1.2.find? (fun e => e.1 == t.id) with
  | none => none
  | some e => do
      let s2 ← appendName sd1.1 e.2.2 name
      pure (s2, sd1.2)

/-- Line 82-86 for one artist: dereference the artist's like-list and process
each of its track references in order. -/
def runArtistS (sd : Store × List DEntry) (p : String × Nat) :
    Option (Store × List DEntry) := do
  let tl ← readTrackList sd.1 p.2
  tl.foldlM (stepLikeS p.1) sd

/-- Lines 80-86 on the heap: the whole aggregation loop, starting from an
empty dict. -/
def runLoopS (s0 : Store) (al : List (String × Nat)) : Option (Store × List DEntry) :=
  al.foldlM runArtistS (s0, [])

/-- Dereference one dict entry into its `(track, artists)` value. -/
def readEntry (s : Store) (e : DEntry) : Option (Track × List String) := do
  let t ← readTrack s e.2.1
  let names ← readStrs s e.2.2
  pure (t, names)

/-- Lines 73-98 on the heap: run the loop, read the dict values out of the
final store, filter them by the threshold (lines 89-93) and stable-sort by the
key of line 96.  The filter and sort only read the store, so the returned
store is the one left by the loop. -/
def find_common_likesS (s0 : Store) (al : List (String × Nat)) (minA : Int) :
    Option (Store × List (Track × List String)) := do
  let sd ← runLoopS s0 al
  let vals ← sd.2.mapM (readEntry sd.1)
  pure (sd.1, (vals.filter (fun v => minA ≤ (v.2.length : Int))).mergeSort trackLE)

/-- The frame invariant of the heap loop: the store only grows, the part of
the store that existed at the start is untouched, and every liker-list
reference held by the dict points past the original store (it was allocated
by line 85). -/
def FrameInv (n0 : Nat) (s0 : Store) (sd : Store × List DEntry) : Prop :=
  n0 ≤ sd.1.length ∧ sd.1.take n0 = s0 ∧ ∀ e ∈ sd.2, n0 ≤ e.2.2

/-- Concrete input used to instantiate theorems with hypotheses:
a track record. -/
def wTrack : Track := ⟨1, "t", "a", "u"⟩

/-- Concrete input: a second track record with another id. -/
def wTrack2 : Track := ⟨2, "t", "b", "u"⟩

/-- Concrete heap for the frame witness: one track object and one like-list
referencing it. -/
def wStore : Store := [Obj.trackObj wTrack, Obj.trackList [0]]

/-! Order lemmas for the sort comparison. -/

theorem char_eq_of_toNat_eq {a b : Char} (h : a.toNat = b.toNat) : a = b :=
  Char.eq_of_val_eq (UInt32.ext h)

theorem strLE_total : ∀ s t : List Char, strLE s t = true ∨ strLE t s = true
  | [], _ => Or.inl rfl
  | _ :: _, [] => Or.inr rfl
  | c :: s, d :: t => by
    by_cases h : c = d
    · subst h
      simpa [strLE] using strLE_total s t
    · have hn : c.toNat ≠ d.toNat := fun hh => h (char_eq_of_toNat_eq hh)
      have hd : d ≠ c := fun hh => h hh.symm
      rcases Nat.lt_or_ge c.toNat d.toNat with hlt | hge
      · exact Or.inl (by simp [strLE, h, hlt])
      · have : d.toNat < c.toNat := Nat.lt_of_le_of_ne hge (fun hh => hn hh.symm)
        exact Or.inr (by simp [strLE, hd, this])

theorem strLE_trans :
    ∀ s t u : List Char, strLE s t = true → strLE t u = true → strLE s u = true
  | [], _, _, _, _ => rfl
  | _ :: _, [], _, h1, _ => by simp [strLE] at h1
  | _ :: _, _ :: _, [], _, h2 => by simp [strLE] at h2
  | c :: s, d :: t, e :: u, h1, h2 => by
    by_cases hcd : c = d <;> by_cases hde : d = e
    · subst hcd; subst hde
      simp only [strLE, if_pos rfl] at h1 h2 ⊢
      exact strLE_trans s t u h1 h2
    · subst hcd
      simp only [strLE, if_pos rfl] at h1
      simpa [strLE, hde] using h2
    · subst hde
      simp only [strLE, if_pos rfl] at h2
      simpa [strLE, hcd] using h1
    · simp only [strLE, if_neg hcd, decide_eq_true_eq] at h1
      simp only [strLE, if_neg hde, decide_eq_true_eq] at h2
      have hce : c.toNat < e.toNat := Nat.lt_trans h1 h2
      have : c ≠ e := fun hh => Nat.lt_irrefl _ (hh ▸ hce)
      simp [strLE, this, hce]

theorem keyLE_total (k1 k2 : Nat × List Char) : (keyLE k1 k2 || keyLE k2 k1) = true := by
  obtain ⟨n1, s1⟩ := k1
  obtain ⟨n2, s2⟩ := k2
  simp only [keyLE, Bool.or_eq_true, decide_eq_true_eq, Bool.and_eq_true, beq_iff_eq]
  rcases Nat.lt_trichotomy n1 n2 with h | h | h
  · tauto
  · subst h
    rcases strLE_total s1 s2 with h | h <;> tauto
  · tauto

theorem keyLE_trans (k1 k2 k3 : Nat × List Char)
    (h1 : keyLE k1 k2 = true) (h2 : keyLE k2 k3 = true) : keyLE k1 k3 = true := by
  obtain ⟨n1, s1⟩ := k1
  obtain ⟨n2, s2⟩ := k2
  obtain ⟨n3, s3⟩ := k3
  simp only [keyLE, Bool.or_eq_true, decide_eq_true_eq, Bool.and_eq_true, beq_iff_eq] at h1 h2 ⊢
  rcases h1 with h1 | ⟨h1e, h1s⟩ <;> rcases h2 with h2 | ⟨h2e, h2s⟩
  · exact Or.inl (by omega)
  · exact Or.inl (by omega)
  · exact Or.inl (by omega)
  · exact Or.inr ⟨by omega, strLE_trans _ _ _ h1s h2s⟩

theorem trackLE_total (a b : Track × List String) : (trackLE a b || trackLE b a) = true :=
  keyLE_total (sortKey a) (sortKey b)

theorem trackLE_trans (a b c : Track × List String)
    (h1 : trackLE a b = true) (h2 : trackLE b c = true) : trackLE a c = true :=
  keyLE_trans _ _ _ h1 h2

theorem strLE_refl : ∀ s : List Char, strLE s s = true
  | [] => rfl
  | _ :: s => by simp [strLE, strLE_refl s]

theorem trackLE_iff (a b : Track × List String) :
    trackLE a b = true ↔
      (b.2.length < a.2.length ∨
       (a.2.length = b.2.length ∧
         strLE (lowerStr a.1.title) (lowerStr b.1.title) = true)) := by
  simp [trackLE, keyLE, sortKey, Bool.or_eq_true, Bool.and_eq_true, beq_iff_eq,
    decide_eq_true_eq]

/-! The nested loops of lines 82-86 equal one fold over the flattened traversal. -/

theorem buildMap_eq_foldl_flat (al : List (String × List Track)) :
    buildMap al = (flatLikes al).foldl stepLike [] := by
  suffices h : ∀ m : List Entry,
      al.foldl (fun m p => p.2.foldl (fun m' t => addLike m' p.1 t) m) m
        = (flatLikes al).foldl stepLike m from h []
  induction al with
  | nil => intro m; rfl
  | cons p al ih =>
    intro m
    show al.foldl _ (p.2.foldl _ m) = (flatLikes (p :: al)).foldl stepLike m
    rw [ih]
    have hflat : flatLikes (p :: al) = p.2.map (fun t => (p.1, t)) ++ flatLikes al := by
      simp [flatLikes]
    rw [hflat, List.foldl_append, List.foldl_map]
    rfl

theorem updEntry_fst (i : Int) (name : String) (e : Entry) : (updEntry i name e).1 = e.1 := by
  unfold updEntry; split <;> rfl

theorem addLike_eq (m : List Entry) (name : String) (t : Track) :
    addLike m name t
      = (if m.any (fun e => e.1 == t.id) then m else m ++ [(t.id, t, [])]).map
          (updEntry t.id name) := rfl

theorem keys_map_upd (i : Int) (name : String) (m : List Entry) :
    (m.map (updEntry i name)).map (fun e => e.1) = m.map (fun e => e.1) := by
  rw [List.map_map]
  exact List.map_congr_left (fun e _ => updEntry_fst i name e)

theorem mem_keys_iff_any (m : List Entry) (i : Int) :
    (m.any (fun e => e.1 == i)) = true ↔ ∃ e ∈ m, e.1 = i := by
  simp [List.any_eq_true]

theorem likersOf_append_single (l : List (String × Track)) (name : String) (t : Track)
    (i : Int) :
    likersOf (l ++ [(name, t)]) i
      = likersOf l i ++ (if t.id = i then [name] else []) := by
  unfold likersOf
  rw [List.filter_append, List.map_append]
  congr 1
  by_cases h : t.id = i <;> simp [h]

theorem firstTrack_append_of_found (l : List (String × Track)) {i : Int}
    (h : ∃ q ∈ l, q.2.id = i) (q' : String × Track) :
    firstTrack (l ++ [q']) i = firstTrack l i := by
  unfold firstTrack
  rw [List.find?_append]
  rcases h with ⟨q0, hq0, hid⟩
  have hsome : (l.find? (fun q => q.2.id == i)).isSome := by
    rw [List.find?_isSome]
    exact ⟨q0, hq0, by simp [hid]⟩
  obtain ⟨a, ha⟩ := Option.isSome_iff_exists.mp hsome
  rw [ha]
  rfl

theorem firstTrack_append_new (l : List (String × Track)) (name : String) (t : Track)
    (h : ¬ ∃ q ∈ l, q.2.id = t.id) :
    firstTrack (l ++ [(name, t)]) t.id = some t := by
  unfold firstTrack
  rw [List.find?_append]
  have hnone : l.find? (fun q => q.2.id == t.id) = none := by
    rw [List.find?_eq_none]
    intro x hx hpx
    exact h ⟨x, hx, by simpa using hpx⟩
  rw [hnone]
  simp [List.find?]

theorem likersOf_eq_nil (l : List (String × Track)) (i : Int)
    (h : ¬ ∃ q ∈ l, q.2.id = i) : likersOf l i = [] := by
  unfold likersOf
  have : l.filter (fun q => q.2.id == i) = [] := by
    rw [List.filter_eq_nil_iff]
    intro q hq hpq
    exact h ⟨q, hq, by simpa using hpq⟩
  rw [this]
  rfl

theorem mapInv_nil : MapInv [] [] := by
  refine ⟨List.nodup_nil, ?_, ?_⟩
  · intro i; simp
  · intro e he; simp at he

theorem mapInv_step (l : List (String × Track)) (name : String) (t : Track)
    (m : List Entry) (h : MapInv l m) : MapInv (l ++ [(name, t)]) (addLike m name t) := by
  obtain ⟨hnd, hkeys, hent⟩ := h
  by_cases hp : (m.any (fun e => e.1 == t.id)) = true
  · -- key already present: every existing entry keeps its key; the matching
    -- entry gets `name` appended to its liker list
    have hpresent : ∃ e ∈ m, e.1 = t.id := (mem_keys_iff_any m t.id).mp hp
    have hoccur : ∃ q ∈ l, q.2.id = t.id := (hkeys t.id).mp hpresent
    have heq : addLike m name t = m.map (updEntry t.id name) := by
      rw [addLike_eq, if_pos hp]
    rw [heq]
    refine ⟨?_, ?_, ?_⟩
    · rw [keys_map_upd]; exact hnd
    · intro i
      constructor
      · rintro ⟨e, he, hei⟩
        rcases List.mem_map.mp he with ⟨e0, he0, rfl⟩
        rw [updEntry_fst] at hei
        rcases (hkeys i).mp ⟨e0, he0, hei⟩ with ⟨q0, hq0, hid⟩
        exact ⟨q0, List.mem_append_left _ hq0, hid⟩
      · rintro ⟨q0, hq0, hid⟩
        rcases List.mem_append.mp hq0 with hq0l | hq0r
        · rcases (hkeys i).mpr ⟨q0, hq0l, hid⟩ with ⟨e0, he0, hei⟩
          exact ⟨updEntry t.id name e0, List.mem_map_of_mem _ he0,
            (updEntry_fst t.id name e0).trans hei⟩
        · have hq0e : q0 = (name, t) := by simpa using hq0r
          subst hq0e
          rcases hpresent with ⟨e0, he0, hei⟩
          exact ⟨updEntry t.id name e0, List.mem_map_of_mem _ he0,
            (updEntry_fst t.id name e0).trans (hei.trans hid)⟩
    · intro e' he'
      rcases List.mem_map.mp he' with ⟨e0, he0, rfl⟩
      obtain ⟨hid0, hft0, hlk0⟩ := hent e0 he0
      have hfound : ∃ q ∈ l, q.2.id = e0.1 := (hkeys e0.1).mp ⟨e0, he0, rfl⟩
      by_cases hkey : e0.1 = t.id
      · have hupd : updEntry t.id name e0 = (e0.1, e0.2.1, e0.2.2 ++ [name]) := by
          simp [updEntry, hkey]
        rw [hupd]
        refine ⟨hid0, ?_, ?_⟩
        · rw [firstTrack_append_of_found l hfound]; exact hft0
        · rw [likersOf_append_single, if_pos hkey.symm, hlk0]
      · have hupd : updEntry t.id name e0 = e0 := by
          simp [updEntry, hkey]
        rw [hupd]
        refine ⟨hid0, ?_, ?_⟩
        · rw [firstTrack_append_of_found l hfound]; exact hft0
        · rw [likersOf_append_single, if_neg (fun hh => hkey hh.symm), hlk0]
          simp
  · -- fresh key: a new entry `(t.id, t, [name])` is appended at the end
    have habsent : ¬ ∃ e ∈ m, e.1 = t.id := fun hc => hp ((mem_keys_iff_any m t.id).mpr hc)
    have hnooccur : ¬ ∃ q ∈ l, q.2.id = t.id := fun hc => habsent ((hkeys t.id).mpr hc)
    have hmupd : m.map (updEntry t.id name) = m :=
      (List.map_congr_left (fun e he => by
        have hne : ¬ (e.1 = t.id) := fun hh => habsent ⟨e, he, hh⟩
        simp [updEntry, hne])).trans (List.map_id m)
    have heq : addLike m name t = m ++ [(t.id, t, [name])] := by
      rw [addLike_eq, if_neg hp, List.map_append, hmupd]
      simp [updEntry]
    rw [heq]
    refine ⟨?_, ?_, ?_⟩
    · rw [List.map_append]
      rw [List.nodup_append]
      refine ⟨hnd, by simp, ?_⟩
      intro x hx hx'
      have hxid : x = t.id := by simpa using hx'
      subst hxid
      rcases List.mem_map.mp hx with ⟨e0, he0, he0k⟩
      exact habsent ⟨e0, he0, he0k⟩
    · intro i
      constructor
      · rintro ⟨e, he, hei⟩
        rcases List.mem_append.mp he with hel | her
        · rcases (hkeys i).mp ⟨e, hel, hei⟩ with ⟨q0, hq0, hid⟩
          exact ⟨q0, List.mem_append_left _ hq0, hid⟩
        · have : e = (t.id, t, [name]) := by simpa using her
          subst this
          exact ⟨(name, t), List.mem_append_right _ (by simp), hei⟩
      · rintro ⟨q0, hq0, hid⟩
        rcases List.mem_append.mp hq0 with hq0l | hq0r
        · rcases (hkeys i).mpr ⟨q0, hq0l, hid⟩ with ⟨e0, he0, hei⟩
          exact ⟨e0, List.mem_append_left _ he0, hei⟩
        · have hq0e : q0 = (name, t) := by simpa using hq0r
          subst hq0e
          exact ⟨(t.id, t, [name]), List.mem_append_right _ (by simp), hid⟩
    · intro e' he'
      rcases List.mem_append.mp he' with hel | her
      · obtain ⟨hid0, hft0, hlk0⟩ := hent e' hel
        have hfound : ∃ q ∈ l, q.2.id = e'.1 := (hkeys e'.1).mp ⟨e', hel, rfl⟩
        have hkey : ¬ (e'.1 = t.id) := fun hh => habsent ⟨e', hel, hh⟩
        refine ⟨hid0, ?_, ?_⟩
        · rw [firstTrack_append_of_found l hfound]; exact hft0
        · rw [likersOf_append_single, if_neg (fun hh => hkey hh.symm), hlk0]
          simp
      · have he'e : e' = (t.id, t, [name]) := by simpa using her
        subst he'e
        refine ⟨rfl, ?_, ?_⟩
        · exact firstTrack_append_new l name t hnooccur
        · rw [likersOf_append_single, if_pos rfl, likersOf_eq_nil l t.id hnooccur]
          rfl

theorem mapInv_foldl (l : List (String × Track)) : MapInv l (l.foldl stepLike []) := by
  induction l using List.reverseRecOn with
  | nil => exact mapInv_nil
  | append_singleton l q ih =>
    rw [List.foldl_append]
    obtain ⟨name, t⟩ := q
    exact mapInv_step l name t _ ih

theorem mapInv_buildMap (al : List (String × List Track)) :
    MapInv (flatLikes al) (buildMap al) := by
  rw [buildMap_eq_foldl_flat]
  exact mapInv_foldl _

/-- The per-occurrence liker list, grouped artist by artist in mapping
iteration order. -/
theorem likersOf_flatLikes (al : List (String × List Track)) (i : Int) :
    likersOf (flatLikes al) i
      = al.flatMap (fun p => (p.2.filter (fun t => t.id == i)).map (fun _ => p.1)) := by
  induction al with
  | nil => rfl
  | cons p al ih =>
    have hflat : flatLikes (p :: al) = p.2.map (fun t => (p.1, t)) ++ flatLikes al := by
      simp [flatLikes]
    unfold likersOf at ih ⊢
    rw [hflat, List.filter_append, List.map_append, List.flatMap_cons, ih]
    congr 1
    rw [List.filter_map, List.map_map]
    rfl

/-! Lemmas for the fallible embedding. -/

theorem addLikeOpt_eq_some (m : List Entry) (name : String) (t : Track) :
    addLikeOpt m name t = some (addLike m name t) := by
  unfold addLikeOpt addLike
  by_cases hp : (m.any (fun e => e.1 == t.id)) = true
  · simp only [hp, if_true]
  · have hany : ((m ++ [(t.id, t, [])]).any fun e => e.1 == t.id) = true := by
      simp
    simp [hp, hany]

theorem foldlM_option_eq_some {α β : Type} {f : β → α → Option β} {g : β → α → β}
    (hfg : ∀ b a, f b a = some (g b a)) :
    ∀ (l : List α) (b : β), l.foldlM f b = some (l.foldl g b)
  | [], _ => rfl
  | a :: l, b => by
    rw [List.foldlM_cons, hfg]
    show (l.foldlM f (g b a)) = _
    rw [foldlM_option_eq_some hfg l (g b a)]
    rfl

/-! Bridge lemmas from the loop invariant to `find_common_likes`. -/

theorem mem_commonOf {al : List (String × List Track)} {minA : Int}
    {v : Track × List String} :
    v ∈ commonOf al minA ↔
      (∃ e ∈ buildMap al, e.2 = v) ∧ minA ≤ (v.2.length : Int) := by
  unfold commonOf dictValues
  rw [List.mem_filter, List.mem_map]
  simp only [decide_eq_true_eq]

theorem mem_fcl {al : List (String × List Track)} {minA : Int}
    {v : Track × List String} :
    v ∈ find_common_likes al minA ↔ v ∈ commonOf al minA := by
  unfold find_common_likes
  exact List.mem_mergeSort

theorem occurs_iff_flat (al : List (String × List Track)) (i : Int) :
    (∃ p ∈ al, ∃ t ∈ p.2, t.id = i) ↔ ∃ q ∈ flatLikes al, q.2.id = i := by
  unfold flatLikes
  constructor
  · rintro ⟨p, hp, t, ht, hid⟩
    exact ⟨(p.1, t), List.mem_flatMap.mpr ⟨p, hp, List.mem_map_of_mem _ ht⟩, hid⟩
  · rintro ⟨q, hq, hid⟩
    rcases List.mem_flatMap.mp hq with ⟨p, hp, hq'⟩
    rcases List.mem_map.mp hq' with ⟨t, ht, rfl⟩
    exact ⟨p, hp, t, ht, hid⟩

/-- Everything the invariant says about one output entry of
`find_common_likes`: its track id has an entry in the dict, the track is the
first-seen record with that id, the liker list is the per-occurrence list of
artist names in traversal order, and the threshold is met. -/
theorem fcl_entry_spec {al : List (String × List Track)} {minA : Int}
    {v : Track × List String} (hv : v ∈ find_common_likes al minA) :
    firstTrack (flatLikes al) v.1.id = some v.1 ∧
    v.2 = likersOf (flatLikes al) v.1.id ∧
    minA ≤ (v.2.length : Int) := by
  obtain ⟨⟨e, he, hev⟩, hlen⟩ := mem_commonOf.mp (mem_fcl.mp hv)
  obtain ⟨-, -, hinv⟩ := mapInv_buildMap al
  obtain ⟨hid, hft, hlk⟩ := hinv e he
  have hv1 : v.1 = e.2.1 := by rw [← hev]
  have hv2 : v.2 = e.2.2 := by rw [← hev]
  have hkey : v.1.id = e.1 := by rw [hv1, hid]
  refine ⟨?_, ?_, hlen⟩
  · rw [hkey, hft, hv1]
  · rw [hkey, ← hlk, hv2]

/-- Completeness half of the threshold property: any track id occurring in the
input whose liker list is long enough reaches the output. -/
theorem fcl_complete (al : List (String × List Track)) (minA : Int) (i : Int)
    (hocc : ∃ p ∈ al, ∃ t ∈ p.2, t.id = i)
    (hcount : minA ≤ ((likersOf (flatLikes al) i).length : Int)) :
    ∃ e ∈ find_common_likes al minA, e.1.id = i := by
  obtain ⟨-, hkeys, hinv⟩ := mapInv_buildMap al
  obtain ⟨e, he, hei⟩ := (hkeys i).mpr ((occurs_iff_flat al i).mp hocc)
  obtain ⟨hid, -, hlk⟩ := hinv e he
  refine ⟨e.2, mem_fcl.mpr (mem_commonOf.mpr ⟨⟨e, he, rfl⟩, ?_⟩), by rw [hid, hei]⟩
  rw [hlk, hei]
  exact hcount

/-! Claim theorems. -/

/-- C1 (status: code_bug).  The spec mandates that an artist's name is
appended to a track's liker list only if not already present, so that a
duplicated track id inside one artist's like-list contributes 1, not 2.  The
code of lines 82-86 appends unconditionally: on the spec's own example
(one artist `"A"` whose like-list holds the same track id twice,
`min_artists = 1`) the liker list is `["A", "A"]` — the artist appears twice
and contributes 2 to the count, where the spec requires `["A"]`. -/
theorem C1_code_appends_per_occurrence :
    find_common_likes [("A", [wTrack, wTrack])] 1 = [(wTrack, ["A", "A"])] ∧
    ∃ e ∈ find_common_likes [("A", [wTrack, wTrack])] 1, 2 ≤ e.2.count "A" := by
  have h : find_common_likes [("A", [wTrack, wTrack])] 1 = [(wTrack, ["A", "A"])] := by
    rw [find_common_likes,
      show commonOf [("A", [wTrack, wTrack])] 1 = [(wTrack, ["A", "A"])] from rfl,
      List.mergeSort_singleton]
  refine ⟨h, (wTrack, ["A", "A"]), ?_, by decide⟩
  rw [h]
  exact List.mem_singleton.mpr rfl

/-- C2 (status: confirmed).  Every returned entry's liker list is at least
`min_artists` long, and every track id occurring in the input that at least
`min_artists` distinct artists like appears in the output. -/
theorem C2_threshold (al : List (String × List Track)) (minA : Int) :
    (∀ e ∈ find_common_likes al minA, minA ≤ (e.2.length : Int)) ∧
    (∀ i : Int, (∃ p ∈ al, ∃ t ∈ p.2, t.id = i) →
      minA ≤ (distinctLikers al i : Int) →
      ∃ e ∈ find_common_likes al minA, e.1.id = i) := by
  constructor
  · intro e he
    exact (fcl_entry_spec he).2.2
  · intro i hocc hcount
    apply fcl_complete al minA i hocc
    have hle : distinctLikers al i ≤ (likersOf (flatLikes al) i).length :=
      (List.dedup_sublist _).length_le
    omega

theorem C2_threshold_witness :
    (∀ e ∈ find_common_likes [("A", [wTrack]), ("B", [wTrack])] 2,
      (2 : Int) ≤ (e.2.length : Int)) ∧
    ∃ e ∈ find_common_likes [("A", [wTrack]), ("B", [wTrack])] 2, e.1.id = 1 := by
  refine ⟨(C2_threshold [("A", [wTrack]), ("B", [wTrack])] 2).1, ?_⟩
  exact (C2_threshold [("A", [wTrack]), ("B", [wTrack])] 2).2 1
    ⟨("A", [wTrack]), by decide, wTrack, by decide, by decide⟩ (by decide)

/-- C3 (status: confirmed).  The output is sorted by descending liker count
and, on equal counts, by ascending lowercased title; entries with identical
(count, lowercased title) keep, in the output, the relative order they had in
the filtered list of line 89-93 (the sort of line 96 is stable). -/
theorem C3_sort_order (al : List (String × List Track)) (minA : Int) :
    (find_common_likes al minA).Chain' (fun a b =>
      b.2.length < a.2.length ∨
      (a.2.length = b.2.length ∧
        strLE (lowerStr a.1.title) (lowerStr b.1.title) = true)) ∧
    (∀ a b : Track × List String, a.2.length = b.2.length →
      lowerStr a.1.title = lowerStr b.1.title →
      [a, b].Sublist (commonOf al minA) →
      [a, b].Sublist (find_common_likes al minA)) := by
  constructor
  · have hs := List.sorted_mergeSort trackLE_trans trackLE_total (commonOf al minA)
    have hp : (find_common_likes al minA).Pairwise (fun a b =>
        b.2.length < a.2.length ∨
        (a.2.length = b.2.length ∧
          strLE (lowerStr a.1.title) (lowerStr b.1.title) = true)) := by
      refine List.Pairwise.imp ?_ hs
      intro a b hab
      exact (trackLE_iff a b).mp hab
    exact hp.chain'
  · intro a b hlen htitle hsub
    apply List.pair_sublist_mergeSort trackLE_trans trackLE_total _ hsub
    exact (trackLE_iff a b).mpr (Or.inr ⟨hlen, htitle ▸ strLE_refl _⟩)

theorem C3_sort_order_witness :
    [(wTrack, ["A"]), (wTrack2, ["B"])].Sublist
      (find_common_likes [("A", [wTrack]), ("B", [wTrack2])] 1) := by
  apply (C3_sort_order [("A", [wTrack]), ("B", [wTrack2])] 1).2
    (wTrack, ["A"]) (wTrack2, ["B"]) (by decide) (by decide)
  have h : commonOf [("A", [wTrack]), ("B", [wTrack2])] 1
      = [(wTrack, ["A"]), (wTrack2, ["B"])] := rfl
  rw [h]

/-- C4 (status: confirmed).  The track record paired with each output id is
the one supplied by the first artist, in mapping iteration order, whose
like-list contains that id: it is the first record of the flattened traversal
carrying the id, so later records with the same id are dropped silently. -/
theorem C4_first_seen_representative (al : List (String × List Track)) (minA : Int)
    (e : Track × List String) (he : e ∈ find_common_likes al minA) :
    firstTrack (flatLikes al) e.1.id = some e.1 :=
  (fcl_entry_spec he).1

theorem C4_first_seen_representative_witness :
    firstTrack (flatLikes [("A", [wTrack]), ("B", [⟨1, "other", "x", "y"⟩])])
      ((wTrack, ["A", "B"]).1.id) = some (wTrack, ["A", "B"]).1 := by
  apply C4_first_seen_representative [("A", [wTrack]), ("B", [⟨1, "other", "x", "y"⟩])] 2
    (wTrack, ["A", "B"])
  rw [find_common_likes,
    show commonOf [("A", [wTrack]), ("B", [⟨1, "other", "x", "y"⟩])] 2
      = [(wTrack, ["A", "B"])] from rfl,
    List.mergeSort_singleton]
  exact List.mem_singleton.mpr rfl

/-- C5 (status: confirmed).  Each track id appears at most once in the output,
and each output liker list is, artist by artist in mapping iteration order,
the artist's name once per occurrence of the track id in that artist's
like-list — mapping insertion order, not alphabetical. -/
theorem C5_unique_ids_ordered_likers (al : List (String × List Track)) (minA : Int) :
    ((find_common_likes al minA).map (fun e => e.1.id)).Nodup ∧
    (∀ e ∈ find_common_likes al minA,
      e.2 = al.flatMap (fun p =>
        (p.2.filter (fun t => t.id == e.1.id)).map (fun _ => p.1))) := by
  constructor
  · obtain ⟨hnd, -, hinv⟩ := mapInv_buildMap al
    have hperm : (find_common_likes al minA).Perm (commonOf al minA) :=
      List.mergeSort_perm _ _
    have hsub : ((commonOf al minA).map (fun e => e.1.id)).Sublist
        ((dictValues (buildMap al)).map (fun e => e.1.id)) :=
      (List.filter_sublist _).map _
    have hvals : ((dictValues (buildMap al)).map (fun e => e.1.id))
        = (buildMap al).map (fun e => e.1) := by
      unfold dictValues
      rw [List.map_map]
      exact List.map_congr_left (fun e he => (hinv e he).1)
    have hnodup : ((commonOf al minA).map (fun e => e.1.id)).Nodup := by
      apply hsub.nodup
      rw [hvals]
      exact hnd
    exact ((hperm.map (fun e => e.1.id)).symm).nodup hnodup
  · intro e he
    rw [(fcl_entry_spec he).2.1]
    exact likersOf_flatLikes al e.1.id

theorem C5_unique_ids_ordered_likers_witness :
    (wTrack, ["A", "B"]).2
      = [("A", [wTrack]), ("B", [wTrack])].flatMap (fun p =>
          (p.2.filter (fun t => t.id == (wTrack, ["A", "B"]).1.id)).map
            (fun _ => p.1)) := by
  apply (C5_unique_ids_ordered_likers [("A", [wTrack]), ("B", [wTrack])] 2).2
  rw [find_common_likes,
    show commonOf [("A", [wTrack]), ("B", [wTrack])] 2
      = [(wTrack, ["A", "B"])] from rfl,
    List.mergeSort_singleton]
  exact List.mem_singleton.mpr rfl

/-- C6 (status: confirmed).  An empty mapping yields the empty sequence for
any threshold, and with `min_artists = 1` every distinct track id occurring in
the input reaches the output. -/
theorem C6_degenerate_cases :
    (∀ minA : Int, find_common_likes [] minA = []) ∧
    (∀ (al : List (String × List Track)) (i : Int),
      (∃ p ∈ al, ∃ t ∈ p.2, t.id = i) →
      ∃ e ∈ find_common_likes al 1, e.1.id = i) := by
  constructor
  · intro minA
    rw [find_common_likes, show commonOf [] minA = [] from rfl]
    exact List.mergeSort_nil
  · intro al i hocc
    apply fcl_complete al 1 i hocc
    have hne : likersOf (flatLikes al) i ≠ [] := by
      obtain ⟨q, hq, hid⟩ := (occurs_iff_flat al i).mp hocc
      unfold likersOf
      intro hnil
      rw [List.map_eq_nil_iff, List.filter_eq_nil_iff] at hnil
      exact hnil q hq (by simp [hid])
    have : 0 < (likersOf (flatLikes al) i).length := List.length_pos.mpr hne
    omega

theorem C6_degenerate_cases_witness :
    find_common_likes [] 2 = [] ∧
    ∃ e ∈ find_common_likes [("A", [wTrack])] 1, e.1.id = 1 := by
  refine ⟨C6_degenerate_cases.1 2, ?_⟩
  exact C6_degenerate_cases.2 [("A", [wTrack])] 1
    ⟨("A", [wTrack]), by decide, wTrack, by decide, by decide⟩

/-- C7 (status: confirmed).  `Track.__eq__` holds exactly when the `id`
fields agree and `Track.__hash__` returns the `id` field, so equality and
hashing depend on nothing but `id`. -/
theorem C7_identity_by_id (t1 t2 : Track) :
    (Track.beq t1 t2 = true ↔ t1.id = t2.id) ∧ Track.hash t1 = t1.id := by
  constructor
  · simp [Track.beq]
  · rfl

/-- C8 (status: confirmed).  In the fallible embedding, where the dict
subscript of line 86 may raise, `find_common_likes` never does: on every
input mapping and threshold it returns exactly the value of the total
embedding. -/
theorem C8_total_over_wellformed_input (al : List (String × List Track)) (minA : Int) :
    find_common_likesOpt al minA = some (find_common_likes al minA) := by
  have h1 : buildMapOpt al = some (buildMap al) := by
    unfold buildMapOpt buildMap
    apply foldlM_option_eq_some
    intro m p
    exact foldlM_option_eq_some (fun m' t => addLikeOpt_eq_some m' p.1 t) p.2 m
  unfold find_common_likesOpt
  rw [h1]
  rfl

/-- C9 (status: confirmed).  The embedding is a pure function — it reads no
state besides its two arguments — and its result depends only on the
content of the input mapping as iterated: two inputs with the same traversal
give identical outputs, so two runs on the same input do too. -/
theorem C9_deterministic (al1 al2 : List (String × List Track)) (minA : Int)
    (h : flatLikes al1 = flatLikes al2) :
    find_common_likes al1 minA = find_common_likes al2 minA := by
  unfold find_common_likes commonOf
  rw [buildMap_eq_foldl_flat, buildMap_eq_foldl_flat, h]

theorem C9_deterministic_witness :
    find_common_likes [("A", [wTrack, wTrack2])] 1
      = find_common_likes [("A", [wTrack]), ("A", [wTrack2])] 1 :=
  C9_deterministic [("A", [wTrack, wTrack2])] [("A", [wTrack]), ("A", [wTrack2])] 1
    (by decide)

/-! Frame lemmas for the heap embedding. -/

theorem take_set_of_le {α : Type} :
    ∀ (s : List α) (a : Nat) (v : α) (n : Nat), n ≤ a →
      (s.set a v).take n = s.take n
  | [], _, _, _, _ => rfl
  | _ :: _, 0, _, n, h => by
    have hn : n = 0 := Nat.le_zero.mp h
    subst hn
    rfl
  | _ :: _, _ + 1, _, 0, _ => rfl
  | x :: s, a + 1, v, n + 1, h => by
    show x :: (s.set a v).take n = x :: s.take n
    rw [take_set_of_le s a v n (Nat.le_of_succ_le_succ h)]

theorem appendName_inv {s : Store} {a : Nat} {name : String} {s2 : Store}
    (h : appendName s a name = some s2) :
    s2.length = s.length ∧ ∀ n ≤ a, s2.take n = s.take n := by
  unfold appendName at h
  cases hga : s.get? a with
  | none => rw [hga] at h; cases h
  | some o =>
    rw [hga] at h
    cases o with
    | trackObj t => cases h
    | trackList l => cases h
    | strList l =>
      have hs2 : s2 = s.set a (Obj.strList (l ++ [name])) := by
        cases h; rfl
      subst hs2
      exact ⟨List.length_set s a _, fun n hn => take_set_of_le s a _ n hn⟩

theorem foldlM_option_inv {α β : Type} {P : β → Prop} {f : β → α → Option β}
    (hf : ∀ b a b', P b → f b a = some b' → P b') :
    ∀ (l : List α) (b b' : β), P b → l.foldlM f b = some b' → P b'
  | [], b, b', hb, h => by
    have hbb : b = b' := by
      have : some b = some b' := h
      exact Option.some_injective _ this
    exact hbb ▸ hb
  | a :: l, b, b', hb, h => by
    rw [List.foldlM_cons] at h
    rcases Option.bind_eq_some.mp h with ⟨b1, hb1, hrest⟩
    exact foldlM_option_inv hf l b1 b' (hf b a b1 hb hb1) hrest

theorem stepLikeS_inv {n0 : Nat} {s0 : Store} (name : String)
    (sd : Store × List DEntry) (ta : Nat) (sd' : Store × List DEntry)
    (hInv : FrameInv n0 s0 sd) (h : stepLikeS name sd ta = some sd') :
    FrameInv n0 s0 sd' := by
  obtain ⟨hlen, htake, hd⟩ := hInv
  unfold stepLikeS at h
  cases hr : readTrack sd.1 ta with
  | none => rw [hr] at h; cases h
  | some t =>
    rw [hr] at h
    have h2 :
        (match
          (if sd.2.any (fun e => e.1 == t.id) then sd
           else (sd.1 ++ [Obj.strList []], sd.2 ++ [(t.id, ta, sd.1.length)])).2.find?
            (fun e => e.1 == t.id) with
         | none => none
         | some e =>
             (appendName
               (if sd.2.any (fun e => e.1 == t.id) then sd
                else (sd.1 ++ [Obj.strList []], sd.2 ++ [(t.id, ta, sd.1.length)])).1
               e.2.2 name).bind
               (fun s2 => some (s2,
                 (if sd.2.any (fun e => e.1 == t.id) then sd
                  else (sd.1 ++ [Obj.strList []],
                    sd.2 ++ [(t.id, ta, sd.1.length)])).2))) = some sd' := h
    set sd1 : Store × List DEntry :=
      if sd.2.any (fun e => e.1 == t.id) then sd
      else (sd.1 ++ [Obj.strList []], sd.2 ++ [(t.id, ta, sd.1.length)]) with hsd1
    have hInv1 : FrameInv n0 s0 sd1 := by
      rw [hsd1]
      split
      · exact ⟨hlen, htake, hd⟩
      · refine ⟨?_, ?_, ?_⟩
        · show n0 ≤ (sd.1 ++ [Obj.strList []]).length
          rw [List.length_append]
          omega
        · show (sd.1 ++ [Obj.strList []]).take n0 = s0
          rw [List.take_append_of_le_length hlen]
          exact htake
        · intro e he
          rcases List.mem_append.mp he with hel | her
          · exact hd e hel
          · have : e = (t.id, ta, sd.1.length) := by simpa using her
            subst this
            exact hlen
    obtain ⟨hlen1, htake1, hd1⟩ := hInv1
    cases hf : sd1.2.find? (fun e => e.1 == t.id) with
    | none => rw [hf] at h2; cases h2
    | some e =>
      rw [hf] at h2
      rcases Option.bind_eq_some.mp h2 with ⟨s2, happ, hpure⟩
      have hsd' : sd' = (s2, sd1.2) := (Option.some_injective _ hpure).symm
      subst hsd'
      have he1 : e ∈ sd1.2 := List.mem_of_find?_eq_some hf
      have hea : n0 ≤ e.2.2 := hd1 e he1
      obtain ⟨hl2, ht2⟩ := appendName_inv happ
      refine ⟨?_, ?_, hd1⟩
      · show n0 ≤ s2.length
        omega
      · show s2.take n0 = s0
        rw [ht2 n0 hea]
        exact htake1

theorem runArtistS_inv {n0 : Nat} {s0 : Store}
    (sd : Store × List DEntry) (p : String × Nat) (sd' : Store × List DEntry)
    (hInv : FrameInv n0 s0 sd) (h : runArtistS sd p = some sd') :
    FrameInv n0 s0 sd' := by
  unfold runArtistS at h
  cases hr : readTrackList sd.1 p.2 with
  | none => rw [hr] at h; cases h
  | some tl =>
    rw [hr] at h
    exact foldlM_option_inv (fun b a b' hb hba => stepLikeS_inv p.1 b a b' hb hba)
      tl sd sd' hInv h

theorem runLoopS_inv (s0 : Store) (al : List (String × Nat))
    (sd : Store × List DEntry) (h : runLoopS s0 al = some sd) :
    FrameInv s0.length s0 sd := by
  unfold runLoopS at h
  refine foldlM_option_inv (fun b a b' hb hba => runArtistS_inv b a b' hb hba)
    al (s0, []) sd ⟨Nat.le_refl _, List.take_length s0, ?_⟩ h
  intro e he
  simp at he

/-- C10 (status: confirmed).  In the heap embedding — where the input
mapping's like-lists and `Track` records are mutable objects in a store and
line 86's `append` is an in-place write — a successful run of
`find_common_likes` leaves every object that existed before the call
unchanged: the final store extends the initial one, all writes landing in
liker lists freshly allocated by line 85. -/
theorem C10_input_not_mutated (s0 : Store) (al : List (String × Nat)) (minA : Int)
    (s1 : Store) (out : List (Track × List String))
    (h : find_common_likesS s0 al minA = some (s1, out)) :
    s1.take s0.length = s0 := by
  unfold find_common_likesS at h
  rcases Option.bind_eq_some.mp h with ⟨sd, hloop, h2⟩
  rcases Option.bind_eq_some.mp h2 with ⟨vals, hvals, h3⟩
  have hs1 : s1 = sd.1 := (congrArg Prod.fst (Option.some_injective _ h3)).symm
  subst hs1
  exact (runLoopS_inv s0 al sd hloop).2.1

theorem C10_input_not_mutated_witness :
    (wStore ++ [Obj.strList ["A"]]).take wStore.length = wStore :=
  C10_input_not_mutated wStore [("A", 1)] 1 (wStore ++ [Obj.strList ["A"]])
    ([(wTrack, ["A"])].mergeSort trackLE) rfl

end Spopify
